import Mathlib

/-!
Verification of the product-collector app (`Product-finder-count.py`).

The program fetches paginated product listings (`{base_url}/products.json?page={n}`)
for a list of base URLs read from an uploaded CSV, under a per-URL wall-clock
budget, groups the URLs into four integer-division batches, and exports the
collected records per batch and combined.

Shallow embedding choices:
* A product record (a Python dict) is an association list `List (String × String)`
  with insertion-order semantics; `dictInsert` models `product['source_url'] = base_url`
  (update in place if the key exists, append otherwise).
* The HTTP layer is an oracle `http : Nat → HttpOutcome` giving, per page number,
  the outcome of `requests.get` for that page of the URL under consideration.
* Wall-clock time is an oracle `elapsed : Nat → Nat` giving the cumulative elapsed
  time observed at the budget check performed just before fetching each page.
* The unbounded `while True` loop of `collect_all_products` is given fuel;
  `none` means the fuel ran out (no counterpart in the source).
* User-facing effects (`st.warning`, `st.error`, progress updates, tables,
  download buttons) are recorded as explicit event traces.
-/

set_option autoImplicit false

namespace ProductFinder

/-- A product record: a Python dict as an insertion-ordered association list. -/
abbrev Record := List (String × String)

/-- The keys of a record, in order. -/
def keysOf (r : Record) : List String := r.map Prod.fst

/-- Association-list lookup (first binding wins), the model of Python dict /
JSON-object key access. -/
def alistGet {β : Type} (k : String) : List (String × β) → Option β
  | [] => none
  | kv :: rest => if kv.1 = k then some kv.2 else alistGet k rest

/-- Python dict assignment `r[k] = v`: if `k` is present, overwrite its value in
place (keeping its position); otherwise append `(k, v)` at the end. -/
def dictInsert (r : Record) (k v : String) : Record :=
  if (alistGet k r).isSome then
    r.map (fun kv => if kv.1 = k then (k, v) else kv)
  else
    r ++ [(k, v)]

/-- Outcome of one `requests.get` call for a page: a successful JSON object body
(top-level keys mapped to record lists), a timeout, or any other request-level
failure (connection error, non-2xx after `raise_for_status`, malformed JSON). -/
inductive HttpOutcome where
  | success (body : List (String × List Record))
  | timeout
  | requestError (msg : String)
  deriving DecidableEq

/-- User-facing log messages emitted by the program. -/
inductive LogMsg where
  | warnTimeout (page : Nat) (base_url : String)
  | errRequest (base_url msg : String)
  | warnBudget (base_url : String)
  deriving DecidableEq

/-- `fetch_products(base_url, page)` given the outcome of the underlying HTTP
request: on success return `data.get("products", [])`; on timeout report a
warning and return `[]`; on any other request failure report an error and
return `[]`. -/
def fetch_products (base_url : String) (page : Nat) (outcome : HttpOutcome) :
    List Record × List LogMsg :=
  match outcome with
  | .success body => ((alistGet "products" body).getD [], [])
  | .timeout => ([], [.warnTimeout page base_url])
  | .requestError e => ([], [.errRequest base_url e])

/-- The record list `fetch_products` hands back to the pagination loop for a
given page, under the HTTP oracle `http`. -/
def fetchPage (http : Nat → HttpOutcome) (base_url : String) (p : Nat) : List Record :=
  (fetch_products base_url p (http p)).1

/-- Result of the `while True` pagination loop of `collect_all_products`:
the accumulated records, the pages actually requested in order, and whether
the loop aborted on the time budget. -/
structure CollectOut where
  products : List Record
  pagesRequested : List Nat
  timedOut : Bool
  deriving DecidableEq

/-- The `while True` loop of `collect_all_products`: at each iteration first
check `time.time() - start_time > max_total_time` (here: `maxTotalTime <
elapsed page`, the check observed just before fetching `page`) and on overrun
return `[]` discarding the accumulator; otherwise fetch the page, stop if it
is empty, else extend the accumulator and move to the next page. -/
def collectLoop (http : Nat → HttpOutcome) (elapsed : Nat → Nat)
    (base_url : String) (maxTotalTime : Nat) :
    Nat → Nat → List Record → List Nat → Option CollectOut
  | 0, _, _, _ => none
  | fuel + 1, page, acc, reqs =>
    if maxTotalTime < elapsed page then
      some ⟨[], reqs, true⟩
    else
      let pageProducts := fetchPage http base_url page
      if pageProducts.isEmpty then
        some ⟨acc, reqs ++ [page], false⟩
      else
        collectLoop http elapsed base_url maxTotalTime fuel (page + 1)
          (acc ++ pageProducts) (reqs ++ [page])

/-- `collect_all_products(base_url, max_total_time)`: run the pagination loop
from page 1 with empty accumulator; on a budget abort return `([],
warning)`; on normal exit stamp every accumulated record with
`source_url = base_url` and return them. The `Bool` records whether the
budget warning was reported. -/
def collect_all_products (http : Nat → HttpOutcome) (elapsed : Nat → Nat)
    (base_url : String) (fuel maxTotalTime : Nat) :
    Option (List Record × List Nat × Bool) :=
  match collectLoop http elapsed base_url maxTotalTime fuel 1 [] [] with
  | none => none
  | some out =>
    if out.timedOut then
      some ([], out.pagesRequested, true)
    else
      some (out.products.map (fun r => dictInsert r "source_url" base_url),
            out.pagesRequested, false)

/-- `batches = [links[i * batch_size:(i + 1) * batch_size] for i in range(num_batches)]`
with `batch_size = len(links) // num_batches`. Python slices clamp at the end
of the list exactly as `drop`/`take` do. -/
def batchesOf (links : List String) (numBatches : Nat) : List (List String) :=
  let batchSize := links.length / numBatches
  (List.range numBatches).map (fun i => (links.drop (i * batchSize)).take batchSize)

/-- Observable events of a run: invocations of `collect_all_products`, progress
updates `progress_bar.progress(i / total_urls)` (recorded as the pair
`(i, total)` standing for the fraction), per-batch table renders, per-batch
download buttons, and the combined download button. -/
inductive REvent where
  | collectCall (url : String)
  | progress (i total : Nat)
  | showTable (batchNum : Nat) (data : List Record)
  | downloadBatch (batchNum : Nat) (data : List Record)
  | downloadAll (data : List Record)
  deriving DecidableEq

/-- The `for i, base_url in enumerate(batch, start=1)` loop of `process_batch`:
collect the URL's products, extend the accumulator when the result is
non-empty, then update the progress bar to `i / total`. The per-URL collector
is abstracted as `collect : String → List Record`. -/
def processBatchGo (collect : String → List Record) (total : Nat) :
    List String → Nat → List Record → List REvent → List Record × List REvent
  | [], _, acc, evs => (acc, evs)
  | url :: rest, i, acc, evs =>
    let products := collect url
    let acc' := if products.isEmpty then acc else acc ++ products
    processBatchGo collect total rest (i + 1) acc'
      (evs ++ [REvent.collectCall url, REvent.progress i total])

/-- `process_batch(batch, ...)`: process the batch's URLs strictly in list
order, returning the accumulated records and the event trace. -/
def process_batch (collect : String → List Record) (batch : List String) :
    List Record × List REvent :=
  processBatchGo collect batch.length batch 1 [] []

/-- The per-batch `for batch_num, batch in enumerate(batches, 1)` loop of the
orchestrator: process each batch, extend `all_results`, and — only if the
batch collected something — show the batch table and its CSV download button.
After the loop, offer the combined download only if `all_results` is
non-empty. -/
def runGo (collect : String → List Record) :
    List (List String) → Nat → List Record → List REvent → List Record × List REvent
  | [], _, allRes, evs =>
    (allRes, evs ++ (if allRes.isEmpty then [] else [REvent.downloadAll allRes]))
  | batch :: rest, bn, allRes, evs =>
    let pr := process_batch collect batch
    let out :=
      if pr.1.isEmpty then []
      else [REvent.showTable bn pr.1, REvent.downloadBatch bn pr.1]
    runGo collect rest (bn + 1) (allRes ++ pr.1) (evs ++ pr.2 ++ out)

/-- The orchestrator body under the "Collect Products from All Batches"
button: batches are processed in order starting at batch number 1. Returns
`all_results` and the full event trace. -/
def runBatches (collect : String → List Record) (batches : List (List String)) :
    List Record × List REvent :=
  runGo collect batches 1 [] []

/-- Outcome of the app after a CSV upload: either the `'link'`-column
validation error (no processing happens), or a completed run with its
`all_results` and event trace. -/
inductive AppOutcome where
  | validationError (msg : String)
  | ran (allResults : List Record) (events : List REvent)
  deriving DecidableEq

/-- The top-level flow after upload: a CSV is a list of named columns; if no
column is named `link`, report the validation error and stop; otherwise take
the `link` column's values, split them into 4 batches and run. -/
def appMain (collect : String → List Record) (csv : List (String × List String)) :
    AppOutcome :=
  if "link" ∈ csv.map Prod.fst then
    let links := (alistGet "link" csv).getD []
    let res := runBatches collect (batchesOf links 4)
    .ran res.1 res.2
  else
    .validationError "The CSV file must contain a 'link' column with base URLs."

/-- The spec-side per-batch trace: for each URL in order, a collector call
followed by a progress update to `i / total`. Used to state that
`process_batch` processes URLs strictly in list order. -/
def batchTraceSpec (total : Nat) : List String → Nat → List REvent
  | [], _ => []
  | url :: rest, i =>
    REvent.collectCall url :: REvent.progress i total :: batchTraceSpec total rest (i + 1)

/-- The spec-side run trace: per batch, its processing events, then (only when
the batch collected something) its table and download events, then the later
batches' events. Used to state the incremental-output behaviour of the
orchestrator. -/
def runTraceSpec (collect : String → List Record) :
    List (List String) → Nat → List REvent
  | [], _ => []
  | b :: rest, bn =>
    (process_batch collect b).2 ++
      (if (process_batch collect b).1.isEmpty then []
       else [REvent.showTable bn (process_batch collect b).1,
             REvent.downloadBatch bn (process_batch collect b).1]) ++
      runTraceSpec collect rest (bn + 1)

/-- Is the event a per-batch table render or a per-batch download button? -/
def isBatchOutput : REvent → Bool
  | .showTable _ _ => true
  | .downloadBatch _ _ => true
  | _ => false

/-- A concrete HTTP oracle for witnesses: pages 1 and 2 hold one product each,
later pages are empty. -/
def httpTwoPages : Nat → HttpOutcome := fun p =>
  if p = 1 then .success [("products", [[("id", "1")]])]
  else if p = 2 then .success [("products", [[("id", "2")]])]
  else .success []

/-- A concrete HTTP oracle for witnesses: the request for page 1 times out,
later pages are empty. -/
def httpPage1TimesOut : Nat → HttpOutcome := fun p =>
  if p = 1 then .timeout else .success []

/-- A concrete HTTP oracle for witnesses: every page is an empty JSON object,
so every page is a genuinely empty page. -/
def httpEmptyPages : Nat → HttpOutcome := fun _ => .success []

/-- A concrete time oracle for witnesses: every budget check sees 0 elapsed
time units. -/
def elapsedZero : Nat → Nat := fun _ => 0

/-- A concrete time oracle for witnesses: the budget checks from page 2 on see
40 elapsed time units (over the default budget of 35). -/
def elapsedLate : Nat → Nat := fun p => if 2 ≤ p then 40 else 0

/-! ### Properties of `dictInsert` -/

theorem alistGet_map_overwrite (k v : String) :
    ∀ r : Record, (alistGet k r).isSome →
      alistGet k (r.map (fun kv => if kv.1 = k then (k, v) else kv)) = some v := by
  intro r
  induction r with
  | nil => intro h; simp [alistGet] at h
  | cons kv rest ih =>
    intro h
    obtain ⟨a, b⟩ := kv
    by_cases hk : a = k
    · subst hk; simp [alistGet]
    · simp only [alistGet, hk, if_false] at h
      simpa [alistGet, hk] using ih h

theorem alistGet_append_of_eq_none (k : String) :
    ∀ r s : Record, alistGet k r = none → alistGet k (r ++ s) = alistGet k s := by
  intro r s
  induction r with
  | nil => intro _; simp
  | cons kv rest ih =>
    intro h
    obtain ⟨a, b⟩ := kv
    by_cases hk : a = k
    · subst hk; simp [alistGet] at h
    · simp only [alistGet, hk, if_false] at h
      simpa [alistGet, hk] using ih h

/-- After `r[k] = v`, looking up `k` yields `v`. -/
theorem alistGet_dictInsert (r : Record) (k v : String) :
    alistGet k (dictInsert r k v) = some v := by
  unfold dictInsert
  by_cases h : (alistGet k r).isSome
  · rw [if_pos h]
    exact alistGet_map_overwrite k v r h
  · rw [if_neg h]
    have hnone : alistGet k r = none := by
      cases hl : alistGet k r with
      | none => rfl
      | some x => rw [hl] at h; simp at h
    rw [alistGet_append_of_eq_none k r _ hnone]
    simp [alistGet]

theorem keysOf_map_overwrite (k v : String) (r : Record) :
    keysOf (r.map (fun kv => if kv.1 = k then (k, v) else kv)) = keysOf r := by
  induction r with
  | nil => rfl
  | cons kv rest ih =>
    obtain ⟨a, b⟩ := kv
    by_cases hk : a = k
    · subst hk; simpa [keysOf] using ih
    · simpa [keysOf, hk] using ih

theorem mem_keysOf_of_isSome (k : String) :
    ∀ r : Record, (alistGet k r).isSome → k ∈ keysOf r := by
  intro r
  induction r with
  | nil => intro h; simp [alistGet] at h
  | cons kv rest ih =>
    intro h
    obtain ⟨a, b⟩ := kv
    by_cases hk : a = k
    · subst hk; simp [keysOf]
    · simp only [alistGet, hk, if_false] at h
      simpa [keysOf, hk] using Or.inr (by simpa [keysOf] using ih h)

theorem not_mem_keysOf_of_eq_none (k : String) :
    ∀ r : Record, alistGet k r = none → k ∉ keysOf r := by
  intro r
  induction r with
  | nil => intro _; simp [keysOf]
  | cons kv rest ih =>
    intro h
    obtain ⟨a, b⟩ := kv
    by_cases hk : a = k
    · subst hk; simp [alistGet] at h
    · simp only [alistGet, hk, if_false] at h
      simpa [keysOf, hk, Ne.symm hk] using ih h

/-- After `r[k] = v` on a record with duplicate-free keys, the key `k` occurs
exactly once. -/
theorem count_keysOf_dictInsert (r : Record) (k v : String)
    (hnd : (keysOf r).Nodup) :
    (keysOf (dictInsert r k v)).count k = 1 := by
  unfold dictInsert
  by_cases h : (alistGet k r).isSome
  · rw [if_pos h, keysOf_map_overwrite]
    exact List.count_eq_one_of_mem hnd (mem_keysOf_of_isSome k r h)
  · rw [if_neg h]
    have hnone : alistGet k r = none := by
      cases hl : alistGet k r with
      | none => rfl
      | some x => rw [hl] at h; simp at h
    have hnm : k ∉ keysOf r := not_mem_keysOf_of_eq_none k r hnone
    have hkeys : keysOf (r ++ [(k, v)]) = keysOf r ++ [k] := by simp [keysOf]
    rw [hkeys, List.count_append, List.count_eq_zero_of_not_mem hnm]
    simp

/-! ### The pagination loop -/

/-- When pages `s, …, s + m - 1` are non-empty, page `s + m` is empty, and no
budget check from page `s` through page `s + m` fires, the loop returns the
accumulator extended by the concatenation of those pages' records, having
requested exactly pages `s, …, s + m`. -/
theorem collectLoop_ok (http : Nat → HttpOutcome) (elapsed : Nat → Nat)
    (url : String) (maxT : Nat) :
    ∀ (m s : Nat) (acc : List Record) (reqs : List Nat) (fuel : Nat),
      (∀ p, s ≤ p → p < s + m → fetchPage http url p ≠ []) →
      fetchPage http url (s + m) = [] →
      (∀ p, s ≤ p → p ≤ s + m → elapsed p ≤ maxT) →
      m + 1 ≤ fuel →
      collectLoop http elapsed url maxT fuel s acc reqs =
        some ⟨acc ++ ((List.range' s m).map (fetchPage http url)).flatten,
              reqs ++ List.range' s (m + 1), false⟩ := by
  intro m
  induction m with
  | zero =>
    intro s acc reqs fuel hne hend htime hfuel
    obtain ⟨f, rfl⟩ : ∃ f, fuel = f + 1 := ⟨fuel - 1, by omega⟩
    have ht : ¬ maxT < elapsed s := by
      have := htime s le_rfl (by omega)
      omega
    have hfp : fetchPage http url s = [] := by simpa using hend
    simp [collectLoop, ht, hfp, List.range']
  | succ m ih =>
    intro s acc reqs fuel hne hend htime hfuel
    obtain ⟨f, rfl⟩ : ∃ f, fuel = f + 1 := ⟨fuel - 1, by omega⟩
    have ht : ¬ maxT < elapsed s := by
      have := htime s le_rfl (by omega)
      omega
    have hfp : fetchPage http url s ≠ [] := hne s le_rfl (by omega)
    have hrec := ih (s + 1) (acc ++ fetchPage http url s) (reqs ++ [s]) f
      (fun p h1 h2 => hne p (by omega) (by omega))
      (by have : s + 1 + m = s + (m + 1) := by omega
          rw [this]; exact hend)
      (fun p h1 h2 => htime p (by omega) (by omega))
      (by omega)
    have hie : (fetchPage http url s).isEmpty = false := by
      cases hc : fetchPage http url s with
      | nil => exact absurd hc hfp
      | cons x xs => rfl
    simp only [collectLoop, ht, if_false, hie, Bool.false_eq_true]
    rw [hrec]
    have hr1 : List.range' s (m + 1) = s :: List.range' (s + 1) m := List.range'_succ s m 1
    have hr2 : List.range' s (m + 1 + 1) = s :: List.range' (s + 1) (m + 1) :=
      List.range'_succ s (m + 1) 1
    simp [hr1, hr2, List.append_assoc]

/-- When pages `s, …, s + m - 1` are non-empty and within budget but the check
before page `s + m` finds the budget exceeded, the loop discards the
accumulator and aborts with the warning, having requested pages `s, …,
s + m - 1`. -/
theorem collectLoop_budget (http : Nat → HttpOutcome) (elapsed : Nat → Nat)
    (url : String) (maxT : Nat) :
    ∀ (m s : Nat) (acc : List Record) (reqs : List Nat) (fuel : Nat),
      (∀ p, s ≤ p → p < s + m → fetchPage http url p ≠ []) →
      (∀ p, s ≤ p → p < s + m → elapsed p ≤ maxT) →
      maxT < elapsed (s + m) →
      m + 1 ≤ fuel →
      collectLoop http elapsed url maxT fuel s acc reqs =
        some ⟨[], reqs ++ List.range' s m, true⟩ := by
  intro m
  induction m with
  | zero =>
    intro s acc reqs fuel hne htime hover hfuel
    obtain ⟨f, rfl⟩ : ∃ f, fuel = f + 1 := ⟨fuel - 1, by omega⟩
    have ht : maxT < elapsed s := by simpa using hover
    simp [collectLoop, ht, List.range']
  | succ m ih =>
    intro s acc reqs fuel hne htime hover hfuel
    obtain ⟨f, rfl⟩ : ∃ f, fuel = f + 1 := ⟨fuel - 1, by omega⟩
    have ht : ¬ maxT < elapsed s := by
      have := htime s le_rfl (by omega)
      omega
    have hfp : fetchPage http url s ≠ [] := hne s le_rfl (by omega)
    have hie : (fetchPage http url s).isEmpty = false := by
      cases hc : fetchPage http url s with
      | nil => exact absurd hc hfp
      | cons x xs => rfl
    have hrec := ih (s + 1) (acc ++ fetchPage http url s) (reqs ++ [s]) f
      (fun p h1 h2 => hne p (by omega) (by omega))
      (fun p h1 h2 => htime p (by omega) (by omega))
      (by have : s + 1 + m = s + (m + 1) := by omega
          rw [this]; exact hover)
      (by omega)
    simp only [collectLoop, ht, if_false, hie, Bool.false_eq_true]
    rw [hrec]
    have hr : List.range' s (m + 1) = s :: List.range' (s + 1) m := List.range'_succ s m 1
    simp [hr]

/-- The loop depends on the HTTP oracle only through the per-page record lists
handed back by `fetch_products`. -/
theorem collectLoop_congr (http http2 : Nat → HttpOutcome) (elapsed : Nat → Nat)
    (url : String) (maxT : Nat)
    (hfp : ∀ p, fetchPage http url p = fetchPage http2 url p) :
    ∀ (fuel page : Nat) (acc : List Record) (reqs : List Nat),
      collectLoop http elapsed url maxT fuel page acc reqs =
        collectLoop http2 elapsed url maxT fuel page acc reqs := by
  intro fuel
  induction fuel with
  | zero => intro page acc reqs; rfl
  | succ f ih =>
    intro page acc reqs
    simp only [collectLoop, hfp page]
    by_cases ht : maxT < elapsed page
    · simp [ht]
    · simp only [ht, if_false]
      by_cases he : (fetchPage http2 url page).isEmpty
      · simp [he]
      · simp only [he, Bool.false_eq_true, if_false]
        exact ih (page + 1) (acc ++ fetchPage http2 url page) (reqs ++ [page])

/-- Every record accumulated by the loop comes from the initial accumulator or
from some fetched page. -/
theorem collectLoop_mem (http : Nat → HttpOutcome) (elapsed : Nat → Nat)
    (url : String) (maxT : Nat) :
    ∀ (fuel page : Nat) (acc : List Record) (reqs : List Nat) (out : CollectOut),
      collectLoop http elapsed url maxT fuel page acc reqs = some out →
      ∀ r ∈ out.products, r ∈ acc ∨ ∃ p, r ∈ fetchPage http url p := by
  intro fuel
  induction fuel with
  | zero => intro page acc reqs out h; exact absurd h (by simp [collectLoop])
  | succ f ih =>
    intro page acc reqs out h r hr
    by_cases ht : maxT < elapsed page
    · simp only [collectLoop, ht, if_true] at h
      obtain rfl := (Option.some.injEq _ _).mp h
      simp at hr
    · simp only [collectLoop, ht, if_false] at h
      by_cases he : (fetchPage http url page).isEmpty
      · simp only [he, if_true] at h
        obtain rfl := (Option.some.injEq _ _).mp h
        exact Or.inl hr
      · simp only [he, Bool.false_eq_true, if_false] at h
        have := ih (page + 1) (acc ++ fetchPage http url page) (reqs ++ [page]) out h r hr
        rcases this with hacc | hp
        · rcases List.mem_append.mp hacc with h1 | h2
          · exact Or.inl h1
          · exact Or.inr ⟨page, h2⟩
        · exact Or.inr hp

/-! ### The batch loop and the orchestrator loop -/

/-- The batch loop extends the accumulator by the concatenation of the
collected record lists and appends, per URL in order, a collector call and a
progress update. -/
theorem processBatchGo_spec (collect : String → List Record) (total : Nat) :
    ∀ (rest : List String) (i : Nat) (acc : List Record) (evs : List REvent),
      processBatchGo collect total rest i acc evs =
        (acc ++ (rest.map collect).flatten, evs ++ batchTraceSpec total rest i) := by
  intro rest
  induction rest with
  | nil => intro i acc evs; simp [processBatchGo, batchTraceSpec]
  | cons url tl ih =>
    intro i acc evs
    have hacc : (if (collect url).isEmpty then acc else acc ++ collect url) =
        acc ++ collect url := by
      by_cases he : (collect url).isEmpty
      · rw [if_pos he, List.isEmpty_iff.mp he, List.append_nil]
      · rw [if_neg he]
    simp only [processBatchGo, hacc, ih]
    simp [batchTraceSpec, List.append_assoc]

/-- `process_batch` returns the concatenation of the per-URL record lists in
list order, together with the in-order trace of collector calls and progress
updates. -/
theorem process_batch_spec (collect : String → List Record) (batch : List String) :
    process_batch collect batch =
      ((batch.map collect).flatten, batchTraceSpec batch.length batch 1) := by
  simpa using processBatchGo_spec collect batch.length batch 1 [] []

/-- The orchestrator loop: `all_results` is the batch-ordered concatenation of
the per-batch record lists, and the trace is the per-batch segments followed
by the combined download (present only when `all_results` is non-empty). -/
theorem runGo_spec (collect : String → List Record) :
    ∀ (bs : List (List String)) (bn : Nat) (acc : List Record) (evs : List REvent),
      runGo collect bs bn acc evs =
        (acc ++ (bs.map (fun b => (process_batch collect b).1)).flatten,
         evs ++ runTraceSpec collect bs bn ++
           (if (acc ++ (bs.map (fun b => (process_batch collect b).1)).flatten).isEmpty
            then []
            else [REvent.downloadAll
                    (acc ++ (bs.map (fun b => (process_batch collect b).1)).flatten)])) := by
  intro bs
  induction bs with
  | nil => intro bn acc evs; simp [runGo, runTraceSpec]
  | cons b rest ih =>
    intro bn acc evs
    simp only [runGo, ih]
    simp [runTraceSpec, List.append_assoc]

/-- `runTraceSpec` distributes over appending batch lists, shifting the batch
number by the length of the prefix. -/
theorem runTraceSpec_append (collect : String → List Record) :
    ∀ (xs ys : List (List String)) (bn : Nat),
      runTraceSpec collect (xs ++ ys) bn =
        runTraceSpec collect xs bn ++ runTraceSpec collect ys (bn + xs.length) := by
  intro xs
  induction xs with
  | nil => intro ys bn; simp [runTraceSpec]
  | cons x tl ih =>
    intro ys bn
    simp only [List.cons_append, runTraceSpec, List.append_eq, ih, List.length_cons,
      List.append_assoc]
    have h2 : bn + 1 + tl.length = bn + (tl.length + 1) := by omega
    rw [h2]

/-- Concatenating the `numBatches` integer-division slices recovers the prefix
of the list up to `numBatches * batchSize`. -/
theorem flatten_slices (links : List String) (bs : Nat) :
    ∀ n : Nat,
      ((List.range n).map (fun i => (links.drop (i * bs)).take bs)).flatten =
        links.take (n * bs) := by
  intro n
  induction n with
  | zero => simp
  | succ n ih =>
    rw [List.range_succ, List.map_append, List.flatten_append, ih]
    simp only [List.map_cons, List.map_nil, List.flatten_cons, List.flatten_nil,
      List.append_nil]
    rw [Nat.succ_mul, List.take_add]

/-! ### Claim theorems -/

/-- C3: with `num_batches = 4`, the orchestrator forms 4 contiguous,
non-overlapping batches, batch `i` being the slice of `links` at indices
`i * (N / 4), …, (i + 1) * (N / 4) - 1`, each of size exactly `N / 4`; their
concatenation is exactly the prefix `links.take (4 * (N / 4))`, so every URL
at an index `≥ 4 * (N / 4)` appears in no batch. -/
theorem batches_partition (links : List String) :
    (batchesOf links 4).length = 4 ∧
    (∀ i, i < 4 → (batchesOf links 4).getD i [] =
        (links.drop (i * (links.length / 4))).take (links.length / 4)) ∧
    (∀ b ∈ batchesOf links 4, b.length = links.length / 4) ∧
    (batchesOf links 4).flatten = links.take (4 * (links.length / 4)) := by
  have hrange : List.range 4 = [0, 1, 2, 3] := rfl
  have h4 : links.length / 4 * 4 ≤ links.length := Nat.div_mul_le_self _ 4
  refine ⟨by simp [batchesOf], ?_, ?_, ?_⟩
  · intro i hi
    interval_cases i <;> simp [batchesOf, hrange]
  · intro b hb
    simp only [batchesOf, List.mem_map] at hb
    obtain ⟨i, hi, rfl⟩ := hb
    have hi4 : i < 4 := List.mem_range.mp hi
    interval_cases i <;>
      (rw [List.length_take, List.length_drop]; omega)
  · simpa [batchesOf] using flatten_slices links (links.length / 4) 4

/-- C3 witness: a concrete 5-URL list is split into four singleton batches
and the fifth URL appears in no batch. -/
theorem batches_partition_witness :
    (batchesOf ["a", "b", "c", "d", "e"] 4).getD 2 [] = ["c"] ∧
    (batchesOf ["a", "b", "c", "d", "e"] 4).flatten = ["a", "b", "c", "d"] := by
  constructor
  · rw [(batches_partition ["a", "b", "c", "d", "e"]).2.1 2 (by omega)]
    rfl
  · rw [(batches_partition ["a", "b", "c", "d", "e"]).2.2.2]
    rfl

/-- C5: `all_results` equals the concatenation, in batch order, of the record
lists the batch processor returned, and the combined download artifact —
offered exactly when `all_results` is non-empty — carries exactly that
concatenation. -/
theorem combined_export_concat (collect : String → List Record)
    (batches : List (List String)) :
    (runBatches collect batches).1 =
      (batches.map (fun b => (process_batch collect b).1)).flatten ∧
    (runBatches collect batches).2 =
      runTraceSpec collect batches 1 ++
        (if (batches.map (fun b => (process_batch collect b).1)).flatten.isEmpty
         then []
         else [REvent.downloadAll
                 ((batches.map (fun b => (process_batch collect b).1)).flatten)]) := by
  have h := runGo_spec collect batches 1 [] []
  unfold runBatches
  rw [h]
  simp

/-- C7: the batch processor handles the batch's URLs strictly in list order —
for each URL, in order, a collector invocation followed by a progress update
to the fraction `i / total` — and returns the concatenation of the collected
record lists in URL-processing order. -/
theorem process_batch_sequential (collect : String → List Record)
    (batch : List String) :
    process_batch collect batch =
      ((batch.map collect).flatten, batchTraceSpec batch.length batch 1) :=
  process_batch_spec collect batch

/-- C10: with fewer than 4 URLs the integer-division batch size is 0, all four
batches are empty, and the run produces no records and no events at all — no
collector invocation (hence no network request), no per-batch table or
download, and no combined download. -/
theorem small_input_all_empty (collect : String → List Record)
    (links : List String) (h : links.length < 4) :
    batchesOf links 4 = [[], [], [], []] ∧
    runBatches collect (batchesOf links 4) = ([], []) := by
  have hbs : links.length / 4 = 0 := Nat.div_eq_of_lt h
  have hb : batchesOf links 4 = [[], [], [], []] := by
    have hrange : List.range 4 = [0, 1, 2, 3] := rfl
    simp [batchesOf, hbs, hrange]
  exact ⟨hb, by rw [hb]; rfl⟩

/-- C10 witness: three URLs and a collector that would return a record for any
URL; still no batch contains anything and the run is empty. -/
theorem small_input_all_empty_witness :
    batchesOf ["a", "b", "c"] 4 = [[], [], [], []] ∧
    runBatches (fun _ => [[("id", "1")]]) (batchesOf ["a", "b", "c"] 4) = ([], []) :=
  small_input_all_empty (fun _ => [[("id", "1")]]) ["a", "b", "c"] (by decide)

/-- C1: when pages 1 through `k` are non-empty, page `k + 1` is empty, and no
between-page budget check sees more than the budget, the collector returns
exactly the concatenation of the records of pages 1..k in page order, each
stamped so that `source_url` reads back as the base URL, having requested
exactly pages 1, 2, …, k + 1 with no gaps or re-fetches. -/
theorem collect_pagination_exact (http : Nat → HttpOutcome) (elapsed : Nat → Nat)
    (url : String) (maxT k fuel : Nat)
    (hne : ∀ p, 1 ≤ p → p ≤ k → fetchPage http url p ≠ [])
    (hend : fetchPage http url (k + 1) = [])
    (htime : ∀ p, 1 ≤ p → p ≤ k + 1 → elapsed p ≤ maxT)
    (hfuel : k + 1 ≤ fuel) :
    collect_all_products http elapsed url fuel maxT =
      some ((((List.range' 1 k).map (fetchPage http url)).flatten).map
              (fun r => dictInsert r "source_url" url),
            List.range' 1 (k + 1), false) ∧
    ∀ r ∈ (((List.range' 1 k).map (fetchPage http url)).flatten).map
            (fun r => dictInsert r "source_url" url),
      alistGet "source_url" r = some url := by
  constructor
  · have hloop := collectLoop_ok http elapsed url maxT k 1 [] [] fuel
      (fun p h1 h2 => hne p h1 (by omega))
      (by have h11 : 1 + k = k + 1 := by omega
          rw [h11]; exact hend)
      (fun p h1 h2 => htime p h1 (by omega))
      hfuel
    unfold collect_all_products
    rw [hloop]
    simp
  · intro r hr
    obtain ⟨r0, _, rfl⟩ := List.mem_map.mp hr
    exact alistGet_dictInsert r0 _ _

/-- C1 witness: two non-empty pages followed by an empty page 3, all checks
within budget. -/
theorem collect_pagination_exact_witness :
    collect_all_products httpTwoPages elapsedZero "https://a.test" 10 35 =
      some ((((List.range' 1 2).map (fetchPage httpTwoPages "https://a.test")).flatten).map
              (fun r => dictInsert r "source_url" "https://a.test"),
            List.range' 1 3, false) :=
  (collect_pagination_exact httpTwoPages elapsedZero "https://a.test" 35 2 10
    (by intro p h1 h2; interval_cases p <;> decide)
    (by decide)
    (fun p h1 h2 => by simp [elapsedZero])
    (by omega)).1

/-- C2: if a between-page budget check sees elapsed time over the budget after
`m` non-empty pages, the collector returns the empty list — the `m` pages of
accumulated records are discarded, never partially returned — with the
warning reported; and a URL whose collector returned the empty list
contributes nothing to its batch while the other URLs' records are
untouched. -/
theorem collect_budget_abort (http : Nat → HttpOutcome) (elapsed : Nat → Nat)
    (url : String) (maxT m fuel : Nat)
    (hne : ∀ p, 1 ≤ p → p ≤ m → fetchPage http url p ≠ [])
    (hok : ∀ p, 1 ≤ p → p ≤ m → elapsed p ≤ maxT)
    (hover : maxT < elapsed (m + 1))
    (hfuel : m + 1 ≤ fuel) :
    collect_all_products http elapsed url fuel maxT =
      some ([], List.range' 1 m, true) ∧
    ∀ (collect : String → List Record) (pre post : List String) (u : String),
      collect u = [] →
      (process_batch collect (pre ++ u :: post)).1 =
        (pre.map collect).flatten ++ (post.map collect).flatten := by
  constructor
  · have hloop := collectLoop_budget http elapsed url maxT m 1 [] [] fuel
      (fun p h1 h2 => hne p h1 (by omega))
      (fun p h1 h2 => hok p h1 (by omega))
      (by have h11 : 1 + m = m + 1 := by omega
          rw [h11]; exact hover)
      hfuel
    unfold collect_all_products
    rw [hloop]
    simp
  · intro collect pre post u hu
    rw [process_batch_spec]
    simp [hu]

/-- C2 witness: page 1 is non-empty, the check before page 2 sees 40 > 35, and
the collector discards page 1's record, returning empty with the warning. -/
theorem collect_budget_abort_witness :
    collect_all_products httpTwoPages elapsedLate "https://a.test" 10 35 =
      some ([], List.range' 1 1, true) :=
  (collect_budget_abort httpTwoPages elapsedLate "https://a.test" 35 1 10
    (by intro p h1 h2; interval_cases p; decide)
    (by intro p h1 h2; interval_cases p; decide)
    (by decide)
    (by omega)).1

/-- C4: the page fetcher returns the empty list with a warning on a timeout and
with an error report on any other request failure; with such a failure at one
page, the collector behaves exactly as if that page were a genuinely empty
page; and the batch processor's trace always covers every URL of the batch,
whatever each URL's collector returned. -/
theorem fetch_failure_nonfatal (url : String) (p : Nat) (e : String) :
    fetch_products url p HttpOutcome.timeout = ([], [LogMsg.warnTimeout p url]) ∧
    fetch_products url p (HttpOutcome.requestError e) =
      ([], [LogMsg.errRequest url e]) ∧
    (∀ (http http2 : Nat → HttpOutcome) (elapsed : Nat → Nat) (fuel maxT : Nat),
      (∀ q, q ≠ p → http2 q = http q) →
      http2 p = HttpOutcome.success [] →
      (http p = HttpOutcome.timeout ∨ http p = HttpOutcome.requestError e) →
      collect_all_products http elapsed url fuel maxT =
        collect_all_products http2 elapsed url fuel maxT) ∧
    (∀ (collect : String → List Record) (batch : List String),
      (process_batch collect batch).2 = batchTraceSpec batch.length batch 1) := by
  refine ⟨rfl, rfl, ?_, ?_⟩
  · intro http http2 elapsed fuel maxT hagree hp2 hfail
    have hfp : ∀ q, fetchPage http url q = fetchPage http2 url q := by
      intro q
      by_cases hq : q = p
      · subst hq
        rcases hfail with h | h <;>
          simp [fetchPage, fetch_products, h, hp2, alistGet]
      · rw [fetchPage, fetchPage, hagree q hq]
    unfold collect_all_products
    rw [collectLoop_congr http http2 elapsed url maxT hfp fuel 1 [] []]
  · intro collect batch
    rw [process_batch_spec]

/-- C4 witness: the timeout report on page 1, and a run where page 1 times out
giving the same collector result as a run where page 1 is genuinely empty. -/
theorem fetch_failure_nonfatal_witness :
    fetch_products "https://a.test" 1 HttpOutcome.timeout =
      ([], [LogMsg.warnTimeout 1 "https://a.test"]) ∧
    collect_all_products httpPage1TimesOut elapsedZero "https://a.test" 5 35 =
      collect_all_products httpEmptyPages elapsedZero "https://a.test" 5 35 := by
  refine ⟨(fetch_failure_nonfatal "https://a.test" 1 "boom").1, ?_⟩
  exact (fetch_failure_nonfatal "https://a.test" 1 "boom").2.2.1
    httpPage1TimesOut httpEmptyPages elapsedZero 5 35
    (fun q hq => by simp [httpPage1TimesOut, httpEmptyPages, hq])
    rfl
    (Or.inl rfl)

/-- C8: every record the collector returns reads back `source_url` as the base
URL whose pagination loop produced it — even when the endpoint supplied its
own `source_url` field — and carries the key exactly once (fetched records,
being Python dicts, have duplicate-free keys); and every record of the
aggregate result set comes from the collector run of some URL of some
batch. -/
theorem source_url_stamp_invariant (http : Nat → HttpOutcome) (elapsed : Nat → Nat)
    (url : String) (fuel maxT : Nat) (res : List Record × List Nat × Bool)
    (hres : collect_all_products http elapsed url fuel maxT = some res)
    (hkeys : ∀ p, ∀ r ∈ fetchPage http url p, (keysOf r).Nodup) :
    (∀ r ∈ res.1, alistGet "source_url" r = some url ∧
        (keysOf r).count "source_url" = 1) ∧
    (∀ (collect : String → List Record) (bs : List (List String)) (r : Record),
      r ∈ (runBatches collect bs).1 → ∃ b ∈ bs, ∃ u ∈ b, r ∈ collect u) := by
  constructor
  · intro r hr
    unfold collect_all_products at hres
    cases hloop : collectLoop http elapsed url maxT fuel 1 [] [] with
    | none => rw [hloop] at hres; exact absurd hres (by simp)
    | some out =>
      rw [hloop] at hres
      dsimp only at hres
      by_cases ht : out.timedOut
      · rw [if_pos ht] at hres
        obtain rfl := (Option.some.injEq _ _).mp hres
        simp at hr
      · rw [if_neg ht] at hres
        obtain rfl := (Option.some.injEq _ _).mp hres
        obtain ⟨r0, hr0, rfl⟩ := List.mem_map.mp hr
        have hmem := collectLoop_mem http elapsed url maxT fuel 1 [] [] out hloop r0 hr0
        have hnd : (keysOf r0).Nodup := by
          rcases hmem with h | ⟨p, hp⟩
          · simp at h
          · exact hkeys p r0 hp
        exact ⟨alistGet_dictInsert r0 _ _, count_keysOf_dictInsert r0 _ _ hnd⟩
  · intro collect bs r hr
    have hspec := runGo_spec collect bs 1 [] []
    unfold runBatches at hr
    rw [hspec] at hr
    simp only [List.nil_append] at hr
    obtain ⟨l, hl, hrl⟩ := List.mem_flatten.mp hr
    obtain ⟨b, hb, rfl⟩ := List.mem_map.mp hl
    rw [process_batch_spec] at hrl
    simp only at hrl
    obtain ⟨l2, hl2, hrl2⟩ := List.mem_flatten.mp hrl
    obtain ⟨u, hu, rfl⟩ := List.mem_map.mp hl2
    exact ⟨b, hb, u, hu, hrl2⟩

/-- C8 witness: the concrete two-page run; the first returned record reads
back `source_url` as the base URL and carries the key once. -/
theorem source_url_stamp_invariant_witness :
    alistGet "source_url" [("id", "1"), ("source_url", "https://a.test")] =
      some "https://a.test" ∧
    (keysOf [("id", "1"), ("source_url", "https://a.test")]).count "source_url" = 1 := by
  have hkeys : ∀ p, ∀ r ∈ fetchPage httpTwoPages "https://a.test" p,
      (keysOf r).Nodup := by
    intro p r hr
    by_cases h1 : p = 1
    · subst h1
      have hr1 : r = [("id", "1")] := by
        simpa [fetchPage, fetch_products, httpTwoPages, alistGet] using hr
      subst hr1; decide
    · by_cases h2 : p = 2
      · subst h2
        have hr2 : r = [("id", "2")] := by
          simpa [fetchPage, fetch_products, httpTwoPages, alistGet] using hr
        subst hr2; decide
      · simp [fetchPage, fetch_products, httpTwoPages, h1, h2, alistGet] at hr
  have hres : collect_all_products httpTwoPages elapsedZero "https://a.test" 10 35 =
      some ([[("id", "1"), ("source_url", "https://a.test")],
             [("id", "2"), ("source_url", "https://a.test")]], [1, 2, 3], false) := by
    decide
  exact (source_url_stamp_invariant httpTwoPages elapsedZero "https://a.test" 10 35
    _ hres hkeys).1 [("id", "1"), ("source_url", "https://a.test")] (by decide)

/-- C6: a CSV without a `link` column makes the run stop at the reported
validation error, with an outcome independent of the collector (so no
collection starts and no network request is made); a CSV with the column
proceeds to a run on its values. -/
theorem missing_link_aborts (collect collect2 : String → List Record)
    (csv : List (String × List String)) :
    ("link" ∉ csv.map Prod.fst →
      appMain collect csv =
        AppOutcome.validationError
          "The CSV file must contain a 'link' column with base URLs." ∧
      appMain collect csv = appMain collect2 csv) ∧
    ("link" ∈ csv.map Prod.fst →
      appMain collect csv =
        AppOutcome.ran
          (runBatches collect (batchesOf ((alistGet "link" csv).getD []) 4)).1
          (runBatches collect (batchesOf ((alistGet "link" csv).getD []) 4)).2) := by
  constructor
  · intro h
    constructor <;> simp [appMain, h]
  · intro h
    simp [appMain, h]

/-- C6 witness: a CSV whose only column is `url` aborts with the validation
error. -/
theorem missing_link_aborts_witness :
    appMain (fun _ => [[("id", "1")]]) [("url", ["https://a.test"])] =
      AppOutcome.validationError
        "The CSV file must contain a 'link' column with base URLs." :=
  ((missing_link_aborts (fun _ => [[("id", "1")]]) (fun _ => [])
    [("url", ["https://a.test"])]).1 (by decide)).1

/-- C9 counterexample: a run over a single one-URL batch whose collector
returns nothing. The batch completes (its URL is processed: the collector
call and the progress update are in the trace) yet the trace holds no table
render and no per-batch download at all — the code only emits them under
`if batch_data:`, so a zero-record batch gets neither. -/
theorem batch_output_counterexample :
    (runBatches (fun _ => []) [["https://a.test"]]).2 =
      [REvent.collectCall "https://a.test", REvent.progress 1 1] ∧
    ((runBatches (fun _ => []) [["https://a.test"]]).2.filter isBatchOutput) = [] := by
  constructor <;> rfl

/-- C9 (amended): after each batch that collected at least one record
completes, its table and its download are made available immediately — their
events follow that batch's processing events and precede every later batch's
events — while a batch that collected zero records produces neither. -/
theorem batch_incremental_output (collect : String → List Record)
    (pre post : List (List String)) (b : List String) :
    (runBatches collect (pre ++ b :: post)).2 =
      runTraceSpec collect pre 1 ++
      (process_batch collect b).2 ++
      (if (process_batch collect b).1.isEmpty then []
       else [REvent.showTable (pre.length + 1) (process_batch collect b).1,
             REvent.downloadBatch (pre.length + 1) (process_batch collect b).1]) ++
      runTraceSpec collect post (pre.length + 2) ++
      (if ((pre ++ b :: post).map (fun bb => (process_batch collect bb).1)).flatten.isEmpty
       then []
       else [REvent.downloadAll
               (((pre ++ b :: post).map (fun bb => (process_batch collect bb).1)).flatten)]) := by
  unfold runBatches
  rw [runGo_spec collect (pre ++ b :: post) 1 [] [], runTraceSpec_append]
  have hbn : 1 + pre.length = pre.length + 1 := by omega
  have hbn2 : pre.length + 1 + 1 = pre.length + 2 := by omega
  simp only [runTraceSpec, hbn, hbn2, List.nil_append, List.append_assoc]

end ProductFinder
